import Mathlib

/-!
# Verification of `poolq` (src/lib/pool.js)

A shallow embedding of the bounded asynchronous resource pool in
`src/lib/pool.js`.  The pool is modelled at quiescent points: every
asynchronous create/destroy step is taken to completion atomically, which
matches the single-threaded cooperative scheduling model of the source
(the only suspension points are the `create`/`destroy` promises, and all
internal mutations between suspension points are atomic).

Asynchronous creation/destruction outcomes are supplied by oracles
(`createOk`, `destroyOk : Nat → Bool` consumed by an index counter), so a
fallible factory is an explicit input of the model instead of hidden
nondeterminism.  Promises handed back to callers are represented by
explicit result values; deferreds that complete later (acquisition
requests, the drain transition) are represented by identifiers, and their
completion is recorded in an event log.
-/

namespace Poolq

/-- The `states` enumeration of `pool.js` (lines 20-25): ACTIVE, DRAINING,
INACTIVE and the reserved, never-assigned RESUMING. -/
inductive Lifecycle
  | active
  | draining
  | inactive
  | resuming
  deriving DecidableEq, Repr

/-- A queued acquisition request: the deferred is identified by `id`, and
`priority` is the value stored by `Pool.acquire` (pool.js lines 220-223). -/
structure Request where
  id : Nat
  priority : Int
  deriving DecidableEq, Repr

/-- Completion events observable by callers: fulfilment or creation-failure
of an acquisition request's deferred (spawn, pool.js lines 121-136), and
resolution/rejection of a drain transition's deferred (pool.js lines
317-321 and 363-368). -/
inductive Event
  | fulfilled (reqId : Nat) (priority : Int) (slot : Nat)
  | createFailed (reqId : Nat) (priority : Int)
  | drainResolved (t : Nat)
  | drainRejected (t : Nat)
  deriving DecidableEq, Repr

/-- The private per-instance state of a `Pool` (the `maps` WeakMaps of
pool.js lines 9-17), together with the oracles for the asynchronous
factory outcomes and bookkeeping for fresh identifiers.

* `count`, `max`, `state`, `queue`, `transition` mirror `maps.count`,
  `maps.max`, `maps.state`, `maps.queue`, `maps.transition`.
* `origin` is the ownership relation `maps.origin` restricted to this
  pool: the list of slot identities currently mapped to this pool.
* `releases` is `maps.releases.get(this)`: cached release promises per
  slot, recorded with their settled outcome (`true` = resolved,
  `false` = destroy failed).
* `nextReq`, `nextSlot`, `nextTransition` mint fresh identities.
* `createOk`/`createIdx` and `destroyOk`/`destroyIdx` are the outcome
  oracles for `_create` and `_destroy`.
* `log` records deferred completions in order. -/
structure PoolState where
  count : Int
  max : Int
  state : Lifecycle
  queue : List Request
  transition : Option Nat
  origin : List Nat
  releases : List (Nat × Bool)
  nextReq : Nat
  nextSlot : Nat
  nextTransition : Nat
  createOk : Nat → Bool
  createIdx : Nat
  destroyOk : Nat → Bool
  destroyIdx : Nat
  log : List Event

/-- Modelled from the spec: the external priority-queue dependency
(`js-priority-queue`, not part of this repository) with the comparator
`queueComparator` of pool.js lines 97-99 (`b.priority - a.priority`).
The spec states "The queue orders requests by descending priority;
equal-priority ordering is whatever the underlying ordered structure
provides and is not guaranteed"; we keep the queue as a list sorted by
descending priority, inserting new requests after existing
equal-priority ones. -/
def enqueue (r : Request) : List Request → List Request
  | [] => [r]
  | x :: xs => if x.priority < r.priority then r :: x :: xs else x :: enqueue r xs

/-- `pool.waiting` (pool.js lines 439-441): the length of the underlying
queue. -/
def PoolState.waiting (p : PoolState) : Nat := p.queue.length

/-- `spawn` (pool.js lines 112-137), run to quiescence: increment `count`
synchronously, then let `_create` settle.  On success the new slot is
recorded in the ownership relation and the request's deferred is resolved
with it; on failure the deferred is rejected and `count` is decremented
again, undoing the reservation. -/
def spawn (p : PoolState) (r : Request) : PoolState :=
  let p' := { p with count := p.count + 1 }
  if p'.createOk p'.createIdx then
    { p' with
      origin := p'.nextSlot :: p'.origin
      nextSlot := p'.nextSlot + 1
      createIdx := p'.createIdx + 1
      log := p'.log ++ [.fulfilled r.id r.priority p'.nextSlot] }
  else
    { p' with
      count := p'.count - 1
      createIdx := p'.createIdx + 1
      log := p'.log ++ [.createFailed r.id r.priority] }

/-- The loop body of `fill` (pool.js lines 68-76), with explicit fuel:
while `count < max` and the queue is non-empty, dequeue the head and
spawn it.  `spawn` never touches the queue, so each iteration removes
exactly one request and the initial queue length is enough fuel. -/
def fillAux : Nat → PoolState → PoolState
  | 0, p => p
  | n + 1, p =>
    if p.count < p.max then
      match p.queue with
      | [] => p
      | r :: rest => fillAux n (spawn { p with queue := rest } r)
    else p

/-- `fill` (pool.js lines 68-76): the admission rule. -/
def fill (p : PoolState) : PoolState := fillAux p.queue.length p

/-- The outcome of `Pool.acquire` as seen by the caller. -/
inductive AcquireResult
  | rejectedInactive
  | rejectedDraining
  | pending (reqId : Nat)
  deriving DecidableEq, Repr

/-- `Pool.acquire` (pool.js lines 203-232): reject when INACTIVE or
DRAINING; otherwise enqueue a fresh request with the given priority and,
if `count < max`, immediately dequeue the head of the priority queue and
spawn it within the same call. -/
def acquire (p : PoolState) (priority : Int) : PoolState × AcquireResult :=
  match p.state with
  | .inactive => (p, .rejectedInactive)
  | .draining => (p, .rejectedDraining)
  | _ =>
    let r : Request := { id := p.nextReq, priority := priority }
    let p' := { p with queue := enqueue r p.queue, nextReq := p.nextReq + 1 }
    let p'' :=
      if p'.count < p'.max then
        match p'.queue with
        | [] => p'
        | q :: rest => spawn { p' with queue := rest } q
      else p'
    (p'', .pending r.id)

/-- The outcome of `Pool.drain` as seen by the caller.  `pending t`
returns the (possibly chained) promise of transition deferred `t`;
`crash` marks the branch where the source would dereference a missing
transition (`maps.transition.get(this).promise` on `undefined`). -/
inductive DrainResult
  | resolved
  | pending (t : Nat)
  | invalidState
  | crash
  deriving DecidableEq, Repr

/-- `Pool.drain` (pool.js lines 242-282): when DRAINING return the
existing transition's promise; when INACTIVE return a resolved promise;
when ACTIVE with `count == 0` flip to INACTIVE and resolve immediately,
otherwise mint a new transition deferred, move to DRAINING and return its
promise; any other state rejects with `Invalid state.`. -/
def drain (p : PoolState) : PoolState × DrainResult :=
  match p.state with
  | .draining =>
    match p.transition with
    | some t => (p, .pending t)
    | none => (p, .crash)
  | .inactive => (p, .resolved)
  | .active =>
    if p.count = 0 then ({ p with state := .inactive }, .resolved)
    else
      let t := p.nextTransition
      ({ p with transition := some t, state := .draining, nextTransition := t + 1 },
       .pending t)
  | .resuming => (p, .invalidState)

/-- The outcome of `Pool.release` as seen by the caller.  `cached b`
returns the previously stored promise for this slot, whose settled
outcome was `b`. -/
inductive ReleaseResult
  | notOwned
  | cached (b : Bool)
  | destroyFailed
  | resolved
  | crash
  deriving DecidableEq, Repr

/-- Lookup in the per-pool `releases` cache. -/
def lookupRelease (s : Nat) : List (Nat × Bool) → Option Bool
  | [] => none
  | (x, b) :: xs => if x = s then some b else lookupRelease s xs

/-- `Pool.release` (pool.js lines 293-335), run to quiescence.  Reject
when the ownership relation does not map the object to this pool; return
the cached promise when one exists; otherwise let `_destroy` settle.  On
destroy success: decrement `count`; if DRAINING and the new count is 0,
resolve the drain transition (whose chained continuation deletes the
transition and sets the state to INACTIVE, pool.js lines 269-273);
if ACTIVE, run `fill`.  On destroy failure the release promise rejects
and no bookkeeping happens.  In both cases the (settled) promise is
cached in `releases`.  `crash` marks the branch where the source would
call `.resolve()` on a missing transition. -/
def release (p : PoolState) (s : Nat) : PoolState × ReleaseResult :=
  if s ∈ p.origin then
    match lookupRelease s p.releases with
    | some b => (p, .cached b)
    | none =>
      if p.destroyOk p.destroyIdx then
        let c := p.count - 1
        let p' := { p with
          count := c
          destroyIdx := p.destroyIdx + 1
          releases := (s, true) :: p.releases }
        match p'.state with
        | .draining =>
          if c = 0 then
            match p'.transition with
            | some t =>
              ({ p' with
                  transition := none
                  state := .inactive
                  log := p'.log ++ [.drainResolved t] }, .resolved)
            | none => (p', .crash)
          else (p', .resolved)
        | .active => (fill p', .resolved)
        | _ => (p', .resolved)
      else
        ({ p with
            destroyIdx := p.destroyIdx + 1
            releases := (s, false) :: p.releases }, .destroyFailed)
  else (p, .notOwned)

/-- The outcome of `Pool.resume` as seen by the caller. -/
inductive ResumeResult
  | resolved
  | invalidState
  | crash
  deriving DecidableEq, Repr

/-- `Pool.resume` (pool.js lines 344-377): no-op when ACTIVE; flip
INACTIVE to ACTIVE; when DRAINING reject the pending transition with
`Pool resumed before completely draining.`, discard it, flip to ACTIVE
and run `fill`; any other state rejects with `Invalid state.`. -/
def resume (p : PoolState) : PoolState × ResumeResult :=
  match p.state with
  | .active => (p, .resolved)
  | .inactive => ({ p with state := .active }, .resolved)
  | .draining =>
    match p.transition with
    | some t =>
      (fill { p with
                transition := none
                state := .active
                log := p.log ++ [.drainRejected t] }, .resolved)
    | none => (p, .crash)
  | .resuming => (p, .invalidState)

/-- The coercion applied by the `max` setter (pool.js lines 413-416):
`parseInt` then clamp to at least 1, defaulting to 1 when the input is
not numeric (`none` models a non-numeric input whose `parseInt` is NaN). -/
def coerceMax : Option Int → Int
  | none => 1
  | some v => max v 1

/-- The `max` setter (pool.js lines 413-422): store the coerced value
and, when the pool is ACTIVE, run `fill`. -/
def setMax (p : PoolState) (n : Option Int) : PoolState :=
  let p' := { p with max := coerceMax n }
  if p'.state = .active then fill p' else p'

/-- The `Pool` constructor (pool.js lines 170-192): count 0, empty queue,
empty release cache, state ACTIVE, no transition, and `max` assigned
through the setter (the temporary `Infinity` placeholder of line 175 is
irrelevant because the setter overwrites it before anything reads it;
we use 0).  The factory oracles are the model's stand-in for the
promisified `options.create` / `options.destroy`. -/
def mkPool (maxOpt : Option Int) (createOk destroyOk : Nat → Bool) : PoolState :=
  setMax
    { count := 0
      max := 0
      state := .active
      queue := []
      transition := none
      origin := []
      releases := []
      nextReq := 0
      nextSlot := 0
      nextTransition := 0
      createOk := createOk
      createIdx := 0
      destroyOk := destroyOk
      destroyIdx := 0
      log := [] }
    maxOpt

/-- One public operation of the pool facade. -/
inductive Op
  | acquire (priority : Int)
  | release (slot : Nat)
  | drain
  | resume
  | setMax (n : Option Int)
  deriving DecidableEq, Repr

/-- Run one operation, keeping only the state (the caller-visible result
is dropped; deferred completions stay observable through `log`). -/
def step (p : PoolState) : Op → PoolState
  | .acquire pr => (acquire p pr).1
  | .release s => (release p s).1
  | .drain => (drain p).1
  | .resume => (resume p).1
  | .setMax n => setMax p n

/-- Run a sequence of operations. -/
def run (p : PoolState) : List Op → PoolState
  | [] => p
  | op :: ops => run (step p op) ops

/-- An all-successes factory oracle. -/
def allOk : Nat → Bool := fun _ => true

/-- A factory oracle that fails on its first invocation and succeeds on
every later one. -/
def failFirst : Nat → Bool := fun n => decide (0 < n)

/-- The two structural invariants of reachable pool states: the drain
transition exists iff the pool is DRAINING, and the reserved RESUMING
state is never assigned. -/
def Inv (p : PoolState) : Prop :=
  (p.transition.isSome ↔ p.state = .draining) ∧ p.state ≠ .resuming

/-- The side condition under which the `count ≤ max` invariant survives a
sequence of operations: every `max` assignment coerces to a value at
least the count at the moment the setter runs (the setter itself never
revokes issued slots, so lowering `max` below `count` leaves
`count > max` until enough releases happen). -/
def admissible (p : PoolState) : List Op → Bool
  | [] => true
  | op :: ops =>
    (match op with
     | .setMax n => decide (p.count ≤ coerceMax n)
     | _ => true) && admissible (step p op) ops

/-- The priorities of the requests whose deferreds have been fulfilled,
in fulfilment order. -/
def admittedPriorities (p : PoolState) : List Int :=
  p.log.filterMap fun e =>
    match e with
    | .fulfilled _ pr _ => some pr
    | _ => none

/-- A `max = 2` pool with an infallible factory. -/
def pool2 : PoolState := mkPool (some 2) allOk allOk

/-- A `max = 1` pool with an infallible factory. -/
def pool1 : PoolState := mkPool (some 1) allOk allOk

/-- `pool1` after one fulfilled acquisition: slot 0 is outstanding. -/
def onePool : PoolState := run pool1 [.acquire 1]

/-- `onePool` after `drain()`: DRAINING with transition 0 pending and
slot 0 still outstanding. -/
def drainPool : PoolState := run pool1 [.acquire 1, .drain]

/-- `onePool` after slot 0 has been released: the release outcome is
cached. -/
def relPool : PoolState := run pool1 [.acquire 1, .release 0]

/-- A `max = 1` pool whose create fails on first invocation only. -/
def failPool : PoolState := mkPool (some 1) failFirst allOk

/-- The C2 scenario: five acquisitions with priorities 1, 5, 1, 3, 1
against `pool2`. -/
def c2state : PoolState :=
  run pool2 [.acquire 1, .acquire 5, .acquire 1, .acquire 3, .acquire 1]

/-! ## Frame lemmas for `spawn` and `fillAux` -/

theorem spawn_frame (p : PoolState) (r : Request) :
    (spawn p r).max = p.max ∧ (spawn p r).state = p.state ∧
    (spawn p r).transition = p.transition ∧ (spawn p r).releases = p.releases ∧
    (spawn p r).queue = p.queue ∧ (spawn p r).destroyIdx = p.destroyIdx ∧
    (spawn p r).destroyOk = p.destroyOk ∧ (spawn p r).createOk = p.createOk := by
  by_cases hc : p.createOk p.createIdx <;> simp [spawn, hc]

theorem spawn_count_le (p : PoolState) (r : Request) (h : p.count < p.max) :
    (spawn p r).count ≤ p.max := by
  by_cases hc : p.createOk p.createIdx <;> simp [spawn, hc] <;> omega

theorem spawn_origin_mono (p : PoolState) (r : Request) (s : Nat)
    (h : s ∈ p.origin) : s ∈ (spawn p r).origin := by
  by_cases hc : p.createOk p.createIdx <;> simp [spawn, hc, h]

theorem spawn_log_append (p : PoolState) (r : Request) :
    ∃ l, (spawn p r).log = p.log ++ l := by
  by_cases hc : p.createOk p.createIdx <;> simp [spawn, hc]

theorem fillAux_frame (n : Nat) (p : PoolState) :
    (fillAux n p).max = p.max ∧ (fillAux n p).state = p.state ∧
    (fillAux n p).transition = p.transition ∧ (fillAux n p).releases = p.releases ∧
    (fillAux n p).destroyIdx = p.destroyIdx ∧ (fillAux n p).destroyOk = p.destroyOk ∧
    (fillAux n p).createOk = p.createOk := by
  induction n generalizing p with
  | zero => simp [fillAux]
  | succ n ih =>
    unfold fillAux
    split
    · rcases hq : p.queue with _ | ⟨r, rest⟩
      · simp [hq]
      · simp only [hq]
        have hs := spawn_frame { p with queue := rest } r
        have hi := ih (spawn { p with queue := rest } r)
        exact ⟨hi.1.trans hs.1, hi.2.1.trans hs.2.1, hi.2.2.1.trans hs.2.2.1,
          hi.2.2.2.1.trans hs.2.2.2.1, hi.2.2.2.2.1.trans hs.2.2.2.2.2.1,
          hi.2.2.2.2.2.1.trans hs.2.2.2.2.2.2.1,
          hi.2.2.2.2.2.2.trans hs.2.2.2.2.2.2.2⟩
    · exact ⟨rfl, rfl, rfl, rfl, rfl, rfl, rfl⟩

theorem spawn_count_succ (p : PoolState) (r : Request)
    (hc : p.createOk p.createIdx = true) : (spawn p r).count = p.count + 1 := by
  simp [spawn, hc]

theorem fillAux_count_le (n : Nat) (p : PoolState) (h : p.count ≤ p.max) :
    (fillAux n p).count ≤ (fillAux n p).max := by
  induction n generalizing p with
  | zero => exact h
  | succ n ih =>
    unfold fillAux
    split
    · next hlt =>
      rcases hq : p.queue with _ | ⟨r, rest⟩
      · exact h
      · have h2 : (spawn { p with queue := rest } r).max = p.max :=
          (spawn_frame _ r).1
        have h1 : (spawn { p with queue := rest } r).count ≤ p.max :=
          spawn_count_le _ r hlt
        exact ih (spawn { p with queue := rest } r) (by rw [h2]; exact h1)
    · exact h

theorem fillAux_queue_length_le (n : Nat) (p : PoolState) :
    (fillAux n p).queue.length ≤ p.queue.length := by
  induction n generalizing p with
  | zero => exact le_refl _
  | succ n ih =>
    unfold fillAux
    split
    · rcases hq : p.queue with _ | ⟨r, rest⟩
      · simp [hq]
      · have h1 : (fillAux n (spawn { p with queue := rest } r)).queue.length ≤
            (spawn { p with queue := rest } r).queue.length :=
          ih (spawn { p with queue := rest } r)
        have h3 : (fillAux n (spawn { p with queue := rest } r)).queue.length ≤
            rest.length := by
          rw [(spawn_frame { p with queue := rest } r).2.2.2.2.1] at h1
          exact h1
        exact h3.trans (by simp only [List.length_cons]; omega)
    · exact Nat.le_refl _

theorem fillAux_origin_mono (n : Nat) (p : PoolState) (s : Nat)
    (h : s ∈ p.origin) : s ∈ (fillAux n p).origin := by
  induction n generalizing p with
  | zero => exact h
  | succ n ih =>
    unfold fillAux
    split
    · rcases hq : p.queue with _ | ⟨r, rest⟩
      · exact h
      · exact ih (spawn { p with queue := rest } r) (spawn_origin_mono _ r s h)
    · exact h

theorem fillAux_log_append (n : Nat) (p : PoolState) :
    ∃ l, (fillAux n p).log = p.log ++ l := by
  induction n generalizing p with
  | zero => exact ⟨[], by simp [fillAux]⟩
  | succ n ih =>
    unfold fillAux
    split
    · rcases hq : p.queue with _ | ⟨r, rest⟩
      · exact ⟨[], by simp⟩
      · obtain ⟨l1, hl1⟩ := spawn_log_append { p with queue := rest } r
        obtain ⟨l2, hl2⟩ := ih (spawn { p with queue := rest } r)
        refine ⟨l1 ++ l2, ?_⟩
        show (fillAux n (spawn { p with queue := rest } r)).log = p.log ++ (l1 ++ l2)
        rw [hl2, hl1]
        simp
    · exact ⟨[], by simp⟩

theorem fillAux_count_allOk (n : Nat) (p : PoolState)
    (hn : p.queue.length ≤ n) (hc : ∀ k, p.createOk k = true)
    (h : p.count ≤ p.max) :
    (fillAux n p).count = min p.max (p.count + p.queue.length) := by
  induction n generalizing p with
  | zero =>
    have h0 : p.queue.length = 0 := Nat.le_zero.mp hn
    simp only [fillAux, h0]
    omega
  | succ n ih =>
    unfold fillAux
    split
    · next hlt =>
      rcases hq : p.queue with _ | ⟨r, rest⟩
      · simp only [List.length_nil]
        omega
      · have hct : (spawn { p with queue := rest } r).count = p.count + 1 :=
          spawn_count_succ _ r (hc _)
        have hqu : (spawn { p with queue := rest } r).queue = rest :=
          (spawn_frame _ r).2.2.2.2.1
        have hm : (spawn { p with queue := rest } r).max = p.max :=
          (spawn_frame _ r).1
        have hcf : (spawn { p with queue := rest } r).createOk = p.createOk :=
          (spawn_frame _ r).2.2.2.2.2.2.2
        have hlen : (spawn { p with queue := rest } r).queue.length ≤ n := by
          rw [hq] at hn
          simp only [List.length_cons] at hn
          rw [hqu]
          omega
        have hkey := ih (spawn { p with queue := rest } r) hlen
          (by intro k; rw [hcf]; exact hc k)
          (by rw [hct, hm]; omega)
        rw [hct, hm, hqu] at hkey
        exact hkey.trans (by simp only [List.length_cons]; push_cast; omega)
    · omega

theorem fill_state (p : PoolState) : (fill p).state = p.state :=
  (fillAux_frame _ p).2.1

theorem fill_transition (p : PoolState) : (fill p).transition = p.transition :=
  (fillAux_frame _ p).2.2.1

theorem fill_max (p : PoolState) : (fill p).max = p.max :=
  (fillAux_frame _ p).1

theorem fill_releases (p : PoolState) : (fill p).releases = p.releases :=
  (fillAux_frame _ p).2.2.2.1

theorem fill_destroyIdx (p : PoolState) : (fill p).destroyIdx = p.destroyIdx :=
  (fillAux_frame _ p).2.2.2.2.1

theorem fill_count_le (p : PoolState) (h : p.count ≤ p.max) :
    (fill p).count ≤ (fill p).max :=
  fillAux_count_le _ p h

/-! ## The reachable-state invariant -/

theorem Inv_congr (p q : PoolState) (hst : q.state = p.state)
    (htr : q.transition = p.transition) (h : Inv p) : Inv q :=
  ⟨by rw [htr, hst]; exact h.1, by rw [hst]; exact h.2⟩

theorem Inv_transition_none (p : PoolState) (h : Inv p)
    (hs : p.state ≠ .draining) : p.transition = none := by
  rcases htr : p.transition with _ | t
  · rfl
  · exact absurd (h.1.mp (by rw [htr]; rfl)) hs

theorem Inv_transition_some (p : PoolState) (h : Inv p)
    (hs : p.state = .draining) : ∃ t, p.transition = some t := by
  have h1 := h.1.mpr hs
  rcases htr : p.transition with _ | t
  · simp [htr] at h1
  · exact ⟨t, rfl⟩

theorem fill_Inv (p : PoolState) (h : Inv p) : Inv (fill p) :=
  Inv_congr p _ (fill_state p) (fill_transition p) h

theorem acquire_keeps (p : PoolState) (pr : Int) :
    ((acquire p pr).1).state = p.state ∧
    ((acquire p pr).1).transition = p.transition ∧
    ((acquire p pr).1).max = p.max ∧
    ((acquire p pr).1).releases = p.releases ∧
    ((acquire p pr).1).destroyOk = p.destroyOk ∧
    ((acquire p pr).1).destroyIdx = p.destroyIdx := by
  unfold acquire
  rcases hs : p.state with _ | _ | _ | _
  case inactive => exact ⟨hs, rfl, rfl, rfl, rfl, rfl⟩
  case draining => exact ⟨hs, rfl, rfl, rfl, rfl, rfl⟩
  all_goals
    dsimp only
    split
    · split
      · exact ⟨rfl, rfl, rfl, rfl, rfl, rfl⟩
      · exact ⟨(spawn_frame _ _).2.1, (spawn_frame _ _).2.2.1,
          (spawn_frame _ _).1, (spawn_frame _ _).2.2.2.1,
          (spawn_frame _ _).2.2.2.2.2.2.1, (spawn_frame _ _).2.2.2.2.2.1⟩
    · exact ⟨rfl, rfl, rfl, rfl, rfl, rfl⟩

theorem Inv_acquire (p : PoolState) (pr : Int) (h : Inv p) :
    Inv (acquire p pr).1 :=
  Inv_congr p _ (acquire_keeps p pr).1 (acquire_keeps p pr).2.1 h

theorem Inv_setMax (p : PoolState) (n : Option Int) (h : Inv p) :
    Inv (setMax p n) := by
  unfold setMax
  dsimp only
  split
  · exact fill_Inv _ (Inv_congr p _ rfl rfl h)
  · exact Inv_congr p _ rfl rfl h

theorem Inv_drain (p : PoolState) (h : Inv p) : Inv (drain p).1 := by
  unfold drain
  rcases hs : p.state with _ | _ | _ | _
  case draining =>
    rcases htr : p.transition with _ | t
    · exact Inv_congr p _ rfl rfl h
    · exact Inv_congr p _ rfl rfl h
  case inactive => exact Inv_congr p _ rfl rfl h
  case resuming => exact Inv_congr p _ rfl rfl h
  case active =>
    have hnone : p.transition = none :=
      Inv_transition_none p h (by simp [hs])
    dsimp only
    split
    · exact ⟨by simp [hnone], by simp⟩
    · exact ⟨by simp, by simp⟩

theorem Inv_resume (p : PoolState) (h : Inv p) : Inv (resume p).1 := by
  unfold resume
  rcases hs : p.state with _ | _ | _ | _
  case active => exact Inv_congr p _ rfl rfl h
  case inactive => exact ⟨by simp [Inv_transition_none p h (by simp [hs])], by simp⟩
  case resuming => exact Inv_congr p _ rfl rfl h
  case draining =>
    rcases htr : p.transition with _ | t
    · exact Inv_congr p _ rfl rfl h
    · dsimp only
      refine fill_Inv _ ?_
      exact ⟨by simp, by simp⟩

theorem Inv_release (p : PoolState) (s : Nat) (h : Inv p) :
    Inv (release p s).1 := by
  unfold release
  by_cases ho : s ∈ p.origin
  · rcases hr : lookupRelease s p.releases with _ | b
    · by_cases hd : p.destroyOk p.destroyIdx
      · simp only [ho, if_true, hr, hd]
        rcases hs : p.state with _ | _ | _ | _
        · dsimp only
          exact fill_Inv _ (Inv_congr p _ hs.symm rfl h)
        · dsimp only
          split
          · obtain ⟨t, htr⟩ := Inv_transition_some p h hs
            simp only [htr]
            exact ⟨by simp, by simp⟩
          · exact Inv_congr p _ hs.symm rfl h
        · exact Inv_congr p _ hs.symm rfl h
        · exact Inv_congr p _ hs.symm rfl h
      · simp only [ho, if_true, hr, hd]
        exact Inv_congr p _ rfl rfl h
    · simp only [ho, if_true, hr]
      exact Inv_congr p _ rfl rfl h
  · simp only [ho, if_false]
    exact Inv_congr p _ rfl rfl h

theorem Inv_step (p : PoolState) (op : Op) (h : Inv p) : Inv (step p op) := by
  cases op with
  | acquire pr => exact Inv_acquire p pr h
  | release s => exact Inv_release p s h
  | drain => exact Inv_drain p h
  | resume => exact Inv_resume p h
  | setMax n => exact Inv_setMax p n h

theorem Inv_run (p : PoolState) (ops : List Op) (h : Inv p) : Inv (run p ops) := by
  induction ops generalizing p with
  | nil => exact h
  | cons op ops ih => exact ih (step p op) (Inv_step p op h)

theorem Inv_mkPool (maxOpt : Option Int) (c d : Nat → Bool) :
    Inv (mkPool maxOpt c d) :=
  Inv_setMax _ maxOpt ⟨by simp, by simp⟩

/-! ## Preservation of `count ≤ max` -/

theorem count_le_acquire (p : PoolState) (pr : Int) (h : p.count ≤ p.max) :
    ((acquire p pr).1).count ≤ ((acquire p pr).1).max := by
  unfold acquire
  rcases hs : p.state with _ | _ | _ | _
  case inactive => exact h
  case draining => exact h
  all_goals
    dsimp only
    split
    · next hlt =>
      split
      · exact h
      · rw [(spawn_frame _ _).1]
        exact spawn_count_le _ _ hlt
    · exact h

theorem count_le_release (p : PoolState) (s : Nat) (h : p.count ≤ p.max) :
    ((release p s).1).count ≤ ((release p s).1).max := by
  unfold release
  by_cases ho : s ∈ p.origin
  · rcases hr : lookupRelease s p.releases with _ | b
    · by_cases hd : p.destroyOk p.destroyIdx
      · simp only [ho, if_true, hr, hd]
        rcases hs : p.state with _ | _ | _ | _
        · dsimp only
          exact fill_count_le _ (by dsimp only; omega)
        · dsimp only
          split
          · rcases htr : p.transition with _ | t
            · dsimp only
              omega
            · dsimp only
              omega
          · dsimp only
            omega
        · dsimp only
          omega
        · dsimp only
          omega
      · simp only [ho, if_true, hr, hd]
        exact h
    · simp only [ho, if_true, hr]
      exact h
  · simp only [ho, if_false]
    exact h

theorem count_le_drain (p : PoolState) (h : p.count ≤ p.max) :
    ((drain p).1).count ≤ ((drain p).1).max := by
  unfold drain
  rcases hs : p.state with _ | _ | _ | _
  case draining =>
    rcases htr : p.transition with _ | t
    · exact h
    · exact h
  case inactive => exact h
  case resuming => exact h
  case active =>
    dsimp only
    split
    · exact h
    · exact h

theorem count_le_resume (p : PoolState) (h : p.count ≤ p.max) :
    ((resume p).1).count ≤ ((resume p).1).max := by
  unfold resume
  rcases hs : p.state with _ | _ | _ | _
  case active => exact h
  case inactive => exact h
  case resuming => exact h
  case draining =>
    rcases htr : p.transition with _ | t
    · exact h
    · dsimp only
      exact fill_count_le _ (by dsimp only; exact h)

theorem count_le_setMax (p : PoolState) (n : Option Int)
    (hadm : p.count ≤ coerceMax n) : ((setMax p n)).count ≤ ((setMax p n)).max := by
  unfold setMax
  dsimp only
  split
  · exact fill_count_le _ (by dsimp only; exact hadm)
  · exact hadm

theorem count_le_run (p : PoolState) (ops : List Op) (h : p.count ≤ p.max)
    (hadm : admissible p ops = true) :
    (run p ops).count ≤ (run p ops).max := by
  induction ops generalizing p with
  | nil => exact h
  | cons op ops ih =>
    cases op with
    | acquire pr =>
      simp only [admissible, Bool.and_eq_true] at hadm
      exact ih _ (count_le_acquire p pr h) hadm.2
    | release s =>
      simp only [admissible, Bool.and_eq_true] at hadm
      exact ih _ (count_le_release p s h) hadm.2
    | drain =>
      simp only [admissible, Bool.and_eq_true] at hadm
      exact ih _ (count_le_drain p h) hadm.2
    | resume =>
      simp only [admissible, Bool.and_eq_true] at hadm
      exact ih _ (count_le_resume p h) hadm.2
    | setMax n =>
      simp only [admissible, Bool.and_eq_true, decide_eq_true_eq] at hadm
      exact ih _ (count_le_setMax p n hadm.1) hadm.2

theorem coerceMax_pos (n : Option Int) : 1 ≤ coerceMax n := by
  rcases n with _ | v
  · exact le_refl 1
  · exact le_max_right v 1

theorem mkPool_count_le (maxOpt : Option Int) (c d : Nat → Bool) :
    (mkPool maxOpt c d).count ≤ (mkPool maxOpt c d).max := by
  show (0 : Int) ≤ coerceMax maxOpt
  linarith [coerceMax_pos maxOpt]

/-! ## Log, ownership and release-cache persistence -/

theorem spawn_no_drainResolved (p : PoolState) (r : Request) (t : Nat)
    (h : Event.drainResolved t ∉ p.log) :
    Event.drainResolved t ∉ (spawn p r).log := by
  by_cases hc : p.createOk p.createIdx <;> simp [spawn, hc, h]

theorem fillAux_no_drainResolved (n : Nat) (p : PoolState) (t : Nat)
    (h : Event.drainResolved t ∉ p.log) :
    Event.drainResolved t ∉ (fillAux n p).log := by
  induction n generalizing p with
  | zero => exact h
  | succ n ih =>
    unfold fillAux
    split
    · rcases hq : p.queue with _ | ⟨r, rest⟩
      · exact h
      · exact ih (spawn { p with queue := rest } r)
          (spawn_no_drainResolved _ r t h)
    · exact h

theorem fillAux_log_mem (n : Nat) (p : PoolState) (e : Event)
    (h : e ∈ p.log) : e ∈ (fillAux n p).log := by
  obtain ⟨l, hl⟩ := fillAux_log_append n p
  rw [hl]
  exact List.mem_append_left _ h

theorem lookupRelease_cons_ne (s x : Nat) (b : Bool) (rs : List (Nat × Bool))
    (h : x ≠ s) : lookupRelease s ((x, b) :: rs) = lookupRelease s rs := by
  simp [lookupRelease, h]

theorem release_cached (p : PoolState) (s : Nat) (b : Bool)
    (ho : s ∈ p.origin) (hc : lookupRelease s p.releases = some b) :
    release p s = (p, .cached b) := by
  unfold release
  simp [ho, hc]

theorem acquire_origin_mono (p : PoolState) (pr : Int) (s : Nat)
    (h : s ∈ p.origin) : s ∈ ((acquire p pr).1).origin := by
  unfold acquire
  rcases hs : p.state with _ | _ | _ | _
  case inactive => exact h
  case draining => exact h
  all_goals
    dsimp only
    split
    · split
      · exact h
      · exact spawn_origin_mono _ _ s h
    · exact h

theorem release_origin_mono (p : PoolState) (s' s : Nat)
    (h : s ∈ p.origin) : s ∈ ((release p s').1).origin := by
  unfold release
  by_cases ho : s' ∈ p.origin
  · rcases hr : lookupRelease s' p.releases with _ | b
    · by_cases hd : p.destroyOk p.destroyIdx
      · simp only [ho, if_true, hr, hd]
        rcases hs : p.state with _ | _ | _ | _
        · exact fillAux_origin_mono _ _ s h
        · dsimp only
          split
          · rcases htr : p.transition with _ | t
            · exact h
            · exact h
          · exact h
        · exact h
        · exact h
      · simp only [ho, if_true, hr, hd]
        exact h
    · simp only [ho, if_true, hr]
      exact h
  · simp only [ho, if_false]
    exact h

theorem drain_keeps (p : PoolState) :
    ((drain p).1).count = p.count ∧ ((drain p).1).origin = p.origin ∧
    ((drain p).1).releases = p.releases ∧ ((drain p).1).log = p.log ∧
    ((drain p).1).queue = p.queue ∧ ((drain p).1).max = p.max ∧
    ((drain p).1).destroyIdx = p.destroyIdx := by
  unfold drain
  rcases hs : p.state with _ | _ | _ | _
  case draining =>
    rcases htr : p.transition with _ | t
    · exact ⟨rfl, rfl, rfl, rfl, rfl, rfl, rfl⟩
    · exact ⟨rfl, rfl, rfl, rfl, rfl, rfl, rfl⟩
  case inactive => exact ⟨rfl, rfl, rfl, rfl, rfl, rfl, rfl⟩
  case resuming => exact ⟨rfl, rfl, rfl, rfl, rfl, rfl, rfl⟩
  case active =>
    dsimp only
    split
    · exact ⟨rfl, rfl, rfl, rfl, rfl, rfl, rfl⟩
    · exact ⟨rfl, rfl, rfl, rfl, rfl, rfl, rfl⟩

theorem resume_origin_mono (p : PoolState) (s : Nat)
    (h : s ∈ p.origin) : s ∈ ((resume p).1).origin := by
  unfold resume
  rcases hs : p.state with _ | _ | _ | _
  case active => exact h
  case inactive => exact h
  case resuming => exact h
  case draining =>
    rcases htr : p.transition with _ | t
    · exact h
    · exact fillAux_origin_mono _ _ s h

theorem resume_releases (p : PoolState) :
    ((resume p).1).releases = p.releases := by
  unfold resume
  rcases hs : p.state with _ | _ | _ | _
  case active => rfl
  case inactive => rfl
  case resuming => rfl
  case draining =>
    rcases htr : p.transition with _ | t
    · rfl
    · exact fill_releases _

theorem setMax_origin_mono (p : PoolState) (n : Option Int) (s : Nat)
    (h : s ∈ p.origin) : s ∈ (setMax p n).origin := by
  unfold setMax
  dsimp only
  split
  · exact fillAux_origin_mono _ _ s h
  · exact h

theorem setMax_releases (p : PoolState) (n : Option Int) :
    (setMax p n).releases = p.releases := by
  unfold setMax
  dsimp only
  split
  · exact fill_releases _
  · rfl

theorem release_lookup_some (p : PoolState) (s' s : Nat) (b : Bool)
    (h : lookupRelease s p.releases = some b) :
    lookupRelease s ((release p s').1).releases = some b := by
  unfold release
  by_cases ho : s' ∈ p.origin
  · rcases hr : lookupRelease s' p.releases with _ | b'
    · have hne : s' ≠ s := fun he => by rw [he, h] at hr; cases hr
      by_cases hd : p.destroyOk p.destroyIdx
      · simp only [ho, if_true, hr, hd]
        rcases hs : p.state with _ | _ | _ | _
        · rw [fill_releases]
          dsimp only
          rw [lookupRelease_cons_ne s s' true p.releases hne]
          exact h
        · dsimp only
          split
          · rcases htr : p.transition with _ | t
            · dsimp only
              rw [lookupRelease_cons_ne s s' true p.releases hne]
              exact h
            · dsimp only
              rw [lookupRelease_cons_ne s s' true p.releases hne]
              exact h
          · dsimp only
            rw [lookupRelease_cons_ne s s' true p.releases hne]
            exact h
        · dsimp only
          rw [lookupRelease_cons_ne s s' true p.releases hne]
          exact h
        · dsimp only
          rw [lookupRelease_cons_ne s s' true p.releases hne]
          exact h
      · simp only [ho, if_true, hr, hd]
        exact (lookupRelease_cons_ne s s' false p.releases hne).trans h
    · simp only [ho, if_true, hr]
      exact h
  · simp only [ho, if_false]
    exact h

theorem step_origin_mono (p : PoolState) (op : Op) (s : Nat)
    (h : s ∈ p.origin) : s ∈ (step p op).origin := by
  cases op with
  | acquire pr => exact acquire_origin_mono p pr s h
  | release s' => exact release_origin_mono p s' s h
  | drain => exact (drain_keeps p).2.1 ▸ h
  | resume => exact resume_origin_mono p s h
  | setMax n => exact setMax_origin_mono p n s h

theorem step_lookup_some (p : PoolState) (op : Op) (s : Nat) (b : Bool)
    (h : lookupRelease s p.releases = some b) :
    lookupRelease s (step p op).releases = some b := by
  cases op with
  | acquire pr => rw [show (step p (.acquire pr)).releases = p.releases from
      (acquire_keeps p pr).2.2.2.1]; exact h
  | release s' => exact release_lookup_some p s' s b h
  | drain => rw [show (step p .drain).releases = p.releases from
      (drain_keeps p).2.2.1]; exact h
  | resume => rw [show (step p .resume).releases = p.releases from
      resume_releases p]; exact h
  | setMax n => rw [show (step p (.setMax n)).releases = p.releases from
      setMax_releases p n]; exact h

theorem run_origin_mono (p : PoolState) (ops : List Op) (s : Nat)
    (h : s ∈ p.origin) : s ∈ (run p ops).origin := by
  induction ops generalizing p with
  | nil => exact h
  | cons op ops ih => exact ih (step p op) (step_origin_mono p op s h)

theorem run_lookup_some (p : PoolState) (ops : List Op) (s : Nat) (b : Bool)
    (h : lookupRelease s p.releases = some b) :
    lookupRelease s (run p ops).releases = some b := by
  induction ops generalizing p with
  | nil => exact h
  | cons op ops ih => exact ih (step p op) (step_lookup_some p op s b h)

/-! ## Claim theorems -/

/-- C1, counterexample: `count ≤ max` does NOT hold at every quiescent
point for every sequence of acquire/release/max-setter operations: with
`max = 2`, acquiring two slots and then setting `max = 1` leaves
`count = 2 > max = 1` (the setter only withholds future admissions, it
never revokes issued slots). -/
theorem C1_count_le_max_counterexample :
    ¬ ((run pool2 [.acquire 1, .acquire 1, .setMax (some 1)]).count ≤
       (run pool2 [.acquire 1, .acquire 1, .setMax (some 1)]).max) := by
  decide

/-- C1, amended: for every sequence of acquire, release, and max-setter
operations in which every max assignment coerces to a value at least the
pool's count at the moment the setter runs (`admissible`), `count ≤ max`
holds at every quiescent point. -/
theorem C1_count_le_max (maxOpt : Option Int) (c d : Nat → Bool)
    (ops : List Op)
    (hadm : admissible (mkPool maxOpt c d) ops = true) :
    (run (mkPool maxOpt c d) ops).count ≤ (run (mkPool maxOpt c d) ops).max :=
  count_le_run _ ops (mkPool_count_le maxOpt c d) hadm

/-- Witness for C1: a concrete admissible sequence of acquires, releases
and a max raise keeps `count ≤ max`. -/
theorem C1_count_le_max_witness :
    admissible pool2
      [.acquire 1, .acquire 1, .setMax (some 3), .acquire 1, .release 0]
      = true ∧
    (run pool2
      [.acquire 1, .acquire 1, .setMax (some 3), .acquire 1, .release 0]).count ≤
    (run pool2
      [.acquire 1, .acquire 1, .setMax (some 3), .acquire 1, .release 0]).max :=
  ⟨by decide, C1_count_le_max (some 2) allOk allOk
    [.acquire 1, .acquire 1, .setMax (some 3), .acquire 1, .release 0]
    (by decide)⟩

/-- C2, counterexample: with `max = 2` and acquires of priorities
[1, 5, 1, 3, 1], the two immediately admitted requests have priorities 1
and 5 — the priority-3 request is NOT admitted immediately, contradicting
the claim that the admitted pair has priorities 5 and 3.  (Each `acquire`
admits synchronously while `count < max`, so the first two callers win
regardless of priority.) -/
theorem C2_priority_scenario_counterexample :
    admittedPriorities c2state = [1, 5] ∧
    (3 : Int) ∉ admittedPriorities c2state := by
  decide

/-- C2, amended: with `max = 2` and acquires of priorities [1, 5, 1, 3, 1],
the two immediately admitted requests are the first two to arrive
(priorities 1 and 5, in arrival order), and the remaining three stay
queued in descending-priority order [3, 1, 1]. -/
theorem C2_priority_scenario :
    admittedPriorities c2state = [1, 5] ∧
    c2state.count = 2 ∧
    c2state.waiting = 3 ∧
    c2state.queue.map Request.priority = [3, 1, 1] := by
  decide

/-- C7: releasing an object the ownership relation does not map to this
pool returns the not-obtained-from-this-pool failure and the entire pool
state — count, waiting, state, queue, ownership, release cache — is
unchanged. -/
theorem C7_release_not_owned (p : PoolState) (s : Nat) (h : s ∉ p.origin) :
    release p s = (p, .notOwned) := by
  unfold release
  simp [h]

/-- Witness for C7: releasing an arbitrary object on a fresh pool fails
with the not-owned condition and changes nothing. -/
theorem C7_release_not_owned_witness :
    (5 ∉ pool1.origin) ∧ release pool1 5 = (pool1, .notOwned) :=
  ⟨by decide, C7_release_not_owned pool1 5 (by decide)⟩

/-- C8: at every observable (quiescent) point of a pool's lifetime — i.e.
after any sequence of public operations from construction — the drain
transition exists if and only if the state is DRAINING. -/
theorem C8_transition_iff_draining (maxOpt : Option Int) (c d : Nat → Bool)
    (ops : List Op) :
    ((run (mkPool maxOpt c d) ops).transition.isSome ↔
      (run (mkPool maxOpt c d) ops).state = .draining) :=
  (Inv_run _ ops (Inv_mkPool maxOpt c d)).1

/-- C9: the reserved RESUMING state is never assigned by any reachable
sequence of operations, and `resume()` returns a successful result from
every reachable state (its invalid-state branch is unreachable). -/
theorem C9_resume_always_succeeds (maxOpt : Option Int) (c d : Nat → Bool)
    (ops : List Op) :
    (run (mkPool maxOpt c d) ops).state ≠ .resuming ∧
    (resume (run (mkPool maxOpt c d) ops)).2 = .resolved := by
  have hI := Inv_run (mkPool maxOpt c d) ops (Inv_mkPool maxOpt c d)
  refine ⟨hI.2, ?_⟩
  unfold resume
  rcases hs : (run (mkPool maxOpt c d) ops).state with _ | _ | _ | _
  · rfl
  · obtain ⟨t, ht⟩ := Inv_transition_some _ hI hs
    rw [ht]
  · rfl
  · exact absurd hs hI.2

/-- C10: once a release has been recorded for an owned slot (its outcome
`b` is cached), every later `release(slot)` call — after any further
sequence of operations whatsoever — returns the identical cached result
and leaves the whole pool state unchanged, so destroy runs at most once
and `count` is decremented at most once per slot. -/
theorem C10_release_permanent_idempotence (p : PoolState) (s : Nat) (b : Bool)
    (ho : s ∈ p.origin) (hc : lookupRelease s p.releases = some b)
    (ops : List Op) :
    release (run p ops) s = (run p ops, .cached b) :=
  release_cached (run p ops) s b (run_origin_mono p ops s ho)
    (run_lookup_some p ops s b hc)

/-- Witness for C10: after a completed (destroyed) release of slot 0 and
further drain/resume activity, releasing slot 0 again returns the same
cached resolved outcome with no state change. -/
theorem C10_release_permanent_idempotence_witness :
    (0 ∈ relPool.origin ∧ lookupRelease 0 relPool.releases = some true) ∧
    release (run relPool [.drain, .resume]) 0 =
      (run relPool [.drain, .resume], .cached true) :=
  ⟨⟨by decide, by decide⟩,
    C10_release_permanent_idempotence relPool 0 true (by decide) (by decide)
      [.drain, .resume]⟩

/-- C3, counterexample: after `release(slot)` completes its destroy
successfully, `count` is decremented but the slot's entry in the
ownership relation is NOT removed — `maps.origin` is never deleted from
in `Pool.release` — contradicting the claim that the ownership entry is
removed. -/
theorem C3_release_success_counterexample :
    (release onePool 0).2 = .resolved ∧
    ((release onePool 0).1).count = 0 ∧
    0 ∈ ((release onePool 0).1).origin := by
  decide

/-- C3, amended: when `release(slot)` is called on an owned, not yet
released slot and destroy succeeds, the pool decrements `count` and
RETAINS the slot's ownership entry (repeat releases are deduplicated via
the cached release result instead); then it either satisfies the drain
completion (state DRAINING and new count 0: state flips to INACTIVE, the
transition is discarded and its resolution is observed) or, when ACTIVE,
runs the admission rule on the decremented state to service the queue. -/
theorem C3_release_success (p : PoolState) (s : Nat) (hI : Inv p)
    (h1 : s ∈ p.origin) (h2 : lookupRelease s p.releases = none)
    (h3 : p.destroyOk p.destroyIdx = true) :
    (release p s).2 = .resolved ∧
    s ∈ ((release p s).1).origin ∧
    lookupRelease s ((release p s).1).releases = some true ∧
    (p.state ≠ .active → ((release p s).1).count = p.count - 1) ∧
    (p.state = .draining → p.count - 1 = 0 →
      ((release p s).1).state = .inactive ∧
      ((release p s).1).transition = none ∧
      ∃ t, p.transition = some t ∧
        ((release p s).1).log = p.log ++ [Event.drainResolved t]) ∧
    (p.state = .active →
      (release p s).1 =
        fill { p with
                count := p.count - 1
                destroyIdx := p.destroyIdx + 1
                releases := (s, true) :: p.releases }) := by
  unfold release
  simp only [h1, if_true, h2, h3]
  rcases hs : p.state with _ | _ | _ | _
  · refine ⟨rfl, ?_, ?_, ?_, ?_, ?_⟩
    · exact fillAux_origin_mono _ _ s h1
    · rw [fill_releases]
      simp [lookupRelease]
    · intro hna
      exact absurd rfl hna
    · intro hd
      exact absurd hd (by simp)
    · intro _
      rfl
  · obtain ⟨t, htr⟩ := Inv_transition_some p hI hs
    dsimp only
    split
    · next hc =>
      simp only [htr]
      refine ⟨by trivial, h1, ?_, ?_, ?_, ?_⟩
      · simp [lookupRelease]
      · intro _
        trivial
      · intro _ _
        refine ⟨by trivial, by trivial, t, by trivial, by trivial⟩
      · intro ha
        exact absurd ha (by simp)
    · next hc =>
      refine ⟨rfl, h1, ?_, ?_, ?_, ?_⟩
      · simp [lookupRelease]
      · intro _
        rfl
      · intro _ hcnt
        exact absurd hcnt hc
      · intro ha
        exact absurd ha (by simp)
  · refine ⟨rfl, h1, ?_, ?_, ?_, ?_⟩
    · simp [lookupRelease]
    · intro _
      rfl
    · intro hd
      exact absurd hd (by simp)
    · intro ha
      exact absurd ha (by simp)
  · refine ⟨rfl, h1, ?_, ?_, ?_, ?_⟩
    · simp [lookupRelease]
    · intro _
      rfl
    · intro hd
      exact absurd hd (by simp)
    · intro ha
      exact absurd ha (by simp)

/-- Witness for C3 (amended): releasing the one outstanding slot of
`onePool` resolves, keeps the ownership entry, and caches the outcome. -/
theorem C3_release_success_witness :
    (0 ∈ onePool.origin ∧ lookupRelease 0 onePool.releases = none ∧
     onePool.destroyOk onePool.destroyIdx = true) ∧
    ((release onePool 0).2 = .resolved ∧
     0 ∈ ((release onePool 0).1).origin ∧
     lookupRelease 0 ((release onePool 0).1).releases = some true) := by
  have h := C3_release_success onePool 0 ⟨by decide, by decide⟩
    (by decide) (by decide) (by rfl)
  exact ⟨⟨by decide, by decide, by rfl⟩, h.1, h.2.1, h.2.2.1⟩

/-- C5: calling `resume()` on a DRAINING pool returns success, rejects
the pending drain transition (its rejection is observable in the log),
discards the transition, sets the state to ACTIVE, and immediately runs
the admission rule on the transitioned state; with an infallible create
factory this re-admits queued requests up to `max`
(`count` becomes `min max (count + waiting)`). -/
theorem C5_resume_cancels_drain (p : PoolState) (t : Nat)
    (hs : p.state = .draining) (ht : p.transition = some t) :
    (resume p).2 = .resolved ∧
    ((resume p).1).state = .active ∧
    ((resume p).1).transition = none ∧
    Event.drainRejected t ∈ ((resume p).1).log ∧
    (resume p).1 =
      fill { p with
              transition := none
              state := .active
              log := p.log ++ [Event.drainRejected t] } ∧
    ((∀ k, p.createOk k = true) → p.count ≤ p.max →
      ((resume p).1).count = min p.max (p.count + p.queue.length)) := by
  unfold resume
  simp only [hs, ht]
  refine ⟨by trivial, ?_, ?_, ?_, by trivial, ?_⟩
  · exact fill_state _
  · exact fill_transition _
  · exact fillAux_log_mem _ _ _ (by simp)
  · intro hco hle
    exact fillAux_count_allOk _ _ (le_refl _) hco hle

/-- Witness for C5: resuming `drainPool` (DRAINING with transition 0 and
one outstanding slot) succeeds, rejects transition 0 and reactivates. -/
theorem C5_resume_cancels_drain_witness :
    (drainPool.state = .draining ∧ drainPool.transition = some 0) ∧
    ((resume drainPool).2 = .resolved ∧
     ((resume drainPool).1).state = .active ∧
     ((resume drainPool).1).transition = none ∧
     Event.drainRejected 0 ∈ ((resume drainPool).1).log) := by
  have h := C5_resume_cancels_drain drainPool 0 (by decide) (by decide)
  exact ⟨⟨by decide, by decide⟩, h.1, h.2.1, h.2.2.1, h.2.2.2.1⟩

/-- C6: when a spawned request's create fails, exactly that request is
failed with the creation error, `count` is restored (the reservation is
undone), and nothing else changes: queue, ownership, release cache,
state, transition and `max` are untouched and the oracle index advances
exactly once (no retry). -/
theorem C6_spawn_create_failure (p : PoolState) (r : Request)
    (h : p.createOk p.createIdx = false) :
    (spawn p r).count = p.count ∧
    (spawn p r).log = p.log ++ [.createFailed r.id r.priority] ∧
    (spawn p r).origin = p.origin ∧
    (spawn p r).queue = p.queue ∧
    (spawn p r).state = p.state ∧
    (spawn p r).transition = p.transition ∧
    (spawn p r).releases = p.releases ∧
    (spawn p r).max = p.max ∧
    (spawn p r).nextSlot = p.nextSlot ∧
    (spawn p r).createIdx = p.createIdx + 1 := by
  simp [spawn, h]

/-- Witness for C6, including the spec scenario: with a factory failing
only on its first invocation, the first acquire fails with the creation
error and `count` returns to 0, freeing capacity so the next acquire
succeeds. -/
theorem C6_spawn_create_failure_witness :
    failPool.createOk failPool.createIdx = false ∧
    (spawn failPool { id := 0, priority := 1 }).count = failPool.count ∧
    (run failPool [.acquire 1]).count = 0 ∧
    (run failPool [.acquire 1]).log = [.createFailed 0 1] ∧
    (run failPool [.acquire 1, .acquire 1]).count = 1 ∧
    (run failPool [.acquire 1, .acquire 1]).log =
      [.createFailed 0 1, .fulfilled 1 1 0] :=
  ⟨rfl, (C6_spawn_create_failure failPool { id := 0, priority := 1 } rfl).1,
    by decide, by decide, by decide, by decide⟩

/-- C4: `drain()` on an ACTIVE pool with `count = 0` resolves at once
(flipping to INACTIVE) and resolves at once on an INACTIVE pool;
`drain()` while DRAINING returns the existing transition's outcome
without changing anything (repeated calls share one pending outcome);
and while DRAINING, the pending transition `t` is resolved by an
operation exactly when that operation is a successful release of an
owned, not-yet-released slot that brings the outstanding count from 1 to
0 — so the drain resolves only when the last outstanding slot is
released. -/
theorem C4_drain_semantics (p : PoolState) (t : Nat) :
    (p.state = .active → p.count = 0 →
      drain p = ({ p with state := .inactive }, .resolved)) ∧
    (p.state = .inactive → drain p = (p, .resolved)) ∧
    (p.state = .draining → p.transition = some t →
      drain p = (p, .pending t)) ∧
    (p.state = .draining → p.transition = some t →
      Event.drainResolved t ∉ p.log →
      ∀ op, (Event.drainResolved t ∈ (step p op).log ↔
        (∃ s, op = .release s ∧ s ∈ p.origin ∧
          lookupRelease s p.releases = none ∧
          p.destroyOk p.destroyIdx = true ∧ p.count = 1))) := by
  refine ⟨?_, ?_, ?_, ?_⟩
  · intro hs hc
    simp [drain, hs, hc]
  · intro hs
    simp [drain, hs]
  · intro hs ht
    simp [drain, hs, ht]
  · intro hs ht hnl op
    cases op with
    | acquire pr =>
      simp [step, acquire, hs, hnl]
    | drain =>
      simp [step, drain, hs, ht, hnl]
    | resume =>
      have hX : Event.drainResolved t ∉ p.log ++ [Event.drainRejected t] := by
        simp [hnl]
      simp only [step]
      unfold resume
      simp only [hs, ht]
      refine iff_of_false ?_ ?_
      · exact fillAux_no_drainResolved _ _ t hX
      · rintro ⟨s, hop, _⟩
        cases hop
    | setMax n =>
      simp [step, setMax, hs, hnl]
    | release s =>
      simp only [step]
      unfold release
      by_cases ho : s ∈ p.origin
      · rcases hr : lookupRelease s p.releases with _ | b
        · by_cases hd : p.destroyOk p.destroyIdx
          · simp only [ho, if_true, hr, hd, hs, ht]
            by_cases hc : p.count - 1 = 0
            · rw [if_pos hc]
              simp [ho, hr, hd]
              omega
            · rw [if_neg hc]
              simp [hnl, ho, hr, hd]
              omega
          · rw [if_pos ho]
            rw [if_neg hd]
            simp [hnl, hd]
        · rw [if_pos ho]
          simp [hnl, hr]
      · rw [if_neg ho]
        simp [hnl, ho]

/-- Witness for C4: on `drainPool` (DRAINING, transition 0, one
outstanding slot), repeated `drain()` returns the same pending outcome,
and releasing the last outstanding slot resolves transition 0. -/
theorem C4_drain_semantics_witness :
    (drainPool.state = .draining ∧ drainPool.transition = some 0 ∧
     Event.drainResolved 0 ∉ drainPool.log ∧ drainPool.count = 1) ∧
    drain drainPool = (drainPool, .pending 0) ∧
    Event.drainResolved 0 ∈ (step drainPool (.release 0)).log := by
  have h := C4_drain_semantics drainPool 0
  refine ⟨⟨by decide, by decide, by decide, by decide⟩,
    h.2.2.1 (by decide) (by decide), ?_⟩
  exact (h.2.2.2 (by decide) (by decide) (by decide) (.release 0)).mpr
    ⟨0, rfl, by decide, by decide, by rfl, by decide⟩

end Poolq
